import Mathlib

/-!
# Graham scan (`convex-hull-problem.go`)

A shallow embedding of `crossProduct` and `grahamScan` and the properties of
the hull they return.

Modelling decisions.

* In the main embedding coordinates are `Int`: the arithmetic of
  `crossProduct` is exact. A Go `float64` holding an integer of small magnitude
  computes the same values, so every concrete input given there is an input of
  the Go program.
* A Go slice is a `List Point`.
* `sort.Slice` belongs to the Go standard library. It only ever calls the
  `less` closure and swaps two elements, so it is taken as a function
  `sortSlice less points` returning the final contents of the slice.
  `grahamScanWith` is the source function over an arbitrary `sortSlice`;
  general theorems assume of it only that the result is a permutation of its
  argument. `insertionSort` is the routine the Go library runs on a slice of at
  most 12 elements (`insertionSortLessFunc`; the releases before Go 1.19 run
  the same loop, after a gap-6 pass that is empty on at most 6 elements), and
  `grahamScan` is `grahamScanWith insertionSort`. The failing inputs below have
  at most 6 points, so they do not depend on the Go release; the only larger
  input is the one of `main`, evaluated with the insertion sort.
* The slice passed to `grahamScan` shares its array with the caller.
  `grahamScanRun` passes a `Memory` (the array of `points`, the array of
  `hull`) through the statements of the function; there `sort.Slice` is a
  `SortSteps`, a program of `less` calls and `swap` calls, which is all the
  library can do to a slice, and `insertionSteps` is the insertion sort as
  such a program.
* Where a property depends on how `float64` rounds or overflows, the
  function is embedded a second time, in the namespace `IEEE`, over `F64`: the
  finite doubles as integer multiples of `2^-1074`, the two infinities and NaN,
  every operation rounded on its own to nearest, ties to even (the Go compiler
  does not fuse the multiplications and the subtraction on amd64). The two
  zeros are one value: the program has no operation that tells them apart.
* The `less` closure of the source reads `points[i]` and `points[j]` from the
  slice being sorted, so it is a function of the two elements compared.
* The hull stack is kept with its top at the head of the list while the scan
  runs, and reversed when returned; `grahamScanChecked` keeps it in source
  order with every index read checked.
-/

namespace ConvexHull

/-- The source's `type Point struct { x, y float64 }`, with exact coordinates. -/
structure Point where
  x : Int
  y : Int
deriving DecidableEq, Repr

/-- The source's `crossProduct(p, q, r)`:
`(q.x-p.x)*(r.y-p.y) - (q.y-p.y)*(r.x-p.x)`. -/
def crossProduct (p q r : Point) : Int :=
  (q.x - p.x) * (r.y - p.y) - (q.y - p.y) * (r.x - p.x)

/-- The anchor loop of `grahamScan` (lines 24-29): `anchor` is the current
candidate, the list holds the points still to visit. -/
def selectAnchor : Point → List Point → Point
  | anchor, [] => anchor
  | anchor, p :: ps =>
    if p.y < anchor.y ∨ (p.y = anchor.y ∧ p.x < anchor.x) then selectAnchor p ps
    else selectAnchor anchor ps

/-- The closure `sortByPolarAngle` of `grahamScan` (lines 32-38), with the
captured `anchor` as first argument. -/
def sortByPolarAngle (anchor p q : Point) : Bool :=
  let cp := crossProduct anchor p q
  if cp = 0 then decide (p.x < q.x) else decide (cp > 0)

/-- The inner loop of Go's `insertionSortLessFunc`,
`for j := i; j > a && less(j, j-1); j-- { swap(j, j-1) }`.
The list holds `data[a..i)` in reverse order (`data[i-1]` first) and `x` is
`data[i]`; the result is `data[a..i]` after the loop, in reverse order. -/
def insertBack {α : Type} (less : α → α → Bool) (x : α) : List α → List α
  | [] => [x]
  | y :: ys => if less x y then y :: insertBack less x ys else x :: y :: ys

/-- The outer loop of Go's `insertionSortLessFunc`, `for i := a+1; i < b; i++`.
The first list is the processed prefix in reverse order, the second the
elements not yet visited. -/
def insertionSortAux {α : Type} (less : α → α → Bool) : List α → List α → List α
  | acc, [] => acc.reverse
  | acc, x :: xs => insertionSortAux less (insertBack less x acc) xs

/-- What `sort.Slice` does to a slice of at most 12 elements: the insertion
sort of Go's `sort` package. -/
def insertionSort {α : Type} (less : α → α → Bool) (l : List α) : List α :=
  insertionSortAux less [] l

/-- The pop loop of line 46-48,
`for len(hull) >= 2 && crossProduct(hull[len-2], hull[len-1], p) <= 0 { pop }`.
The stack has its top at the head: `b` is `hull[len-1]`, `a` is `hull[len-2]`. -/
def popLoop (p : Point) : List Point → List Point
  | b :: a :: rest =>
    if crossProduct a b p ≤ 0 then popLoop p (a :: rest) else b :: a :: rest
  | hull => hull

/-- The scan loop of lines 45-50 over the points `points[2..]`: pop, then
`hull = append(hull, points[i])`. The stack has its top at the head. -/
def scanLoop : List Point → List Point → List Point
  | hull, [] => hull
  | hull, p :: ps => scanLoop (p :: popLoop p hull) ps

/-- The contents of the slice `points` after `sort.Slice` (lines 24-41), for an
input of at least one point: the anchor is selected starting from `points[0]`
over all the points, then the slice is sorted with `sortByPolarAngle`. -/
def sortedPoints (sortSlice : (Point → Point → Bool) → List Point → List Point)
    (points : List Point) : List Point :=
  match points with
  | [] => []
  | p0 :: _ => sortSlice (sortByPolarAngle (selectAnchor p0 points)) points

/-- The source's `grahamScan` over a given `sort.Slice`. Fewer than three
points are returned as they are. Otherwise the hull starts as
`[points[0], points[1]]` of the sorted slice and the scan loop runs over the
rest. The last case is the out-of-range read of `points[0]` or `points[1]`; it
is not reached when `sortSlice` keeps the length of the slice. -/
def grahamScanWith (sortSlice : (Point → Point → Bool) → List Point → List Point)
    (points : List Point) : List Point :=
  if points.length < 3 then points
  else
    match sortedPoints sortSlice points with
    | s0 :: s1 :: rest => (scanLoop [s1, s0] rest).reverse
    | _ => []

/-- The source's `grahamScan` as Go runs it on at most 12 points. -/
def grahamScan (points : List Point) : List Point :=
  grahamScanWith insertionSort points

/-- The ways a run of the Go function can fail to return a hull. -/
inductive Failure where
  | indexOutOfRange
  | outOfFuel
deriving DecidableEq, Repr

/-- The pop loop of lines 46-48 with the stack in source order (top last) and
every index read checked: `hull[len-2]` and `hull[len-1]` are read with `[i]?`,
and each test of the loop condition spends one unit of fuel. -/
def popLoopChecked (p : Point) : Nat → List Point → Except Failure (List Point)
  | 0, _ => .error .outOfFuel
  | fuel + 1, hull =>
    if 2 ≤ hull.length then
      match hull[hull.length - 2]?, hull[hull.length - 1]? with
      | some a, some b =>
        if crossProduct a b p ≤ 0 then popLoopChecked p fuel (hull.take (hull.length - 1))
        else .ok hull
      | _, _ => .error .indexOutOfRange
    else .ok hull

/-- The loop `for i := 2; i < len(points); i++` of lines 45-50 with `points[i]`
read through a checked index: `k` iterations remain, `i` is the loop counter,
the hull is in source order. -/
def scanLoopChecked (fuel : Nat) (points : List Point) :
    Nat → Nat → List Point → Except Failure (List Point)
  | 0, _, hull => .ok hull
  | k + 1, i, hull =>
    match points[i]? with
    | none => .error .indexOutOfRange
    | some p =>
      match popLoopChecked p fuel hull with
      | .error e => .error e
      | .ok popped => scanLoopChecked fuel points k (i + 1) (popped ++ [p])

/-- The source's `grahamScan` with every index read checked (`points[0]` of
line 24, `points[0]` and `points[1]` of line 43, `points[i]` and the two hull
reads of line 46) and `fuel` bounding each run of the pop loop. -/
def grahamScanChecked (sortSlice : (Point → Point → Bool) → List Point → List Point)
    (fuel : Nat) (points : List Point) : Except Failure (List Point) :=
  if points.length < 3 then .ok points
  else
    match points[0]? with
    | none => .error .indexOutOfRange
    | some p0 =>
      let sorted := sortSlice (sortByPolarAngle (selectAnchor p0 points)) points
      match sorted[0]?, sorted[1]? with
      | some s0, some s1 => scanLoopChecked fuel sorted (sorted.length - 2) 2 [s0, s1]
      | _, _ => .error .indexOutOfRange

/-- The directed edges of the closed polygon on the vertices `hull`: every
vertex with its successor, and the last vertex with the first. -/
def hullEdges (hull : List Point) : List (Point × Point) :=
  hull.zip (hull.tail ++ hull.take 1)

/-- The cyclically consecutive triples of `hull`, wrapping around its end. -/
def hullTurns (hull : List Point) : List (Point × Point × Point) :=
  hull.zip ((hull.tail ++ hull.take 1).zip (hull.drop 2 ++ hull.take 2))

/-- Containment: every point of `points` is on or to the left of every directed
edge of the closed polygon `hull`. -/
def Containment (points hull : List Point) : Prop :=
  ∀ e ∈ hullEdges hull, ∀ p ∈ points, 0 ≤ crossProduct e.1 e.2 p

instance decidableContainment (points hull : List Point) : Decidable (Containment points hull) := by
  unfold Containment; infer_instance

/-- Strict convexity: every cyclically consecutive triple of `hull` is a strict
left turn. -/
def StrictlyConvex (hull : List Point) : Prop :=
  ∀ t ∈ hullTurns hull, 0 < crossProduct t.1 t.2.1 t.2.2

instance decidableStrictlyConvex (hull : List Point) : Decidable (StrictlyConvex hull) := by
  unfold StrictlyConvex; infer_instance

/-- The point `a` is an anchor of `points`: one of them, with least `y`, and
least `x` among those of that `y`. -/
def IsAnchor (points : List Point) (a : Point) : Prop :=
  a ∈ points ∧ ∀ p ∈ points, a.y < p.y ∨ (a.y = p.y ∧ a.x ≤ p.x)

instance decidableIsAnchor (points : List Point) (a : Point) : Decidable (IsAnchor points a) := by
  unfold IsAnchor; infer_instance

/-- Some three points of `points` are not collinear. -/
def NotAllCollinear (points : List Point) : Prop :=
  ∃ a ∈ points, ∃ b ∈ points, ∃ c ∈ points, crossProduct a b c ≠ 0

instance decidableNotAllCollinear (points : List Point) : Decidable (NotAllCollinear points) := by
  unfold NotAllCollinear; infer_instance

/-- Every three elements next to each other on the stack (top at the head)
make a strict left turn, read from the bottom of the stack to its top. -/
def StackTurns : List Point → Prop
  | c :: b :: a :: rest => 0 < crossProduct a b c ∧ StackTurns (b :: a :: rest)
  | _ => True

/-- The order of the anchor loop: `a` is before or equal to `p` by `(y, x)`. -/
def LexLE (a p : Point) : Prop :=
  a.y < p.y ∨ (a.y = p.y ∧ a.x ≤ p.x)

/-- The point `p` is strictly after `a` by `(y, x)`: above it, or at its height
and to its right. -/
def NonAnchor (a p : Point) : Prop :=
  p.y > a.y ∨ (p.y = a.y ∧ p.x > a.x)

instance decidableNonAnchor (a p : Point) : Decidable (NonAnchor a p) := by
  unfold NonAnchor; infer_instance

/-- Every three points of `points` are collinear. -/
def AllCollinear (points : List Point) : Prop :=
  ∀ a ∈ points, ∀ b ∈ points, ∀ c ∈ points, crossProduct a b c = 0

instance decidableAllCollinear (points : List Point) : Decidable (AllCollinear points) := by
  unfold AllCollinear; infer_instance

/-- The point `p` lies on the closed segment from `a` to `b`. -/
def OnSegment (a b p : Point) : Prop :=
  crossProduct a b p = 0 ∧ min a.x b.x ≤ p.x ∧ p.x ≤ max a.x b.x ∧
    min a.y b.y ≤ p.y ∧ p.y ≤ max a.y b.y

instance decidableOnSegment (a b p : Point) : Decidable (OnSegment a b p) := by
  unfold OnSegment; infer_instance

/-- The slice built by `main` (lines 74-83). -/
def mainPoints : List Point :=
  [⟨0, 3⟩, ⟨1, 1⟩, ⟨2, 2⟩, ⟨4, 4⟩, ⟨0, 0⟩, ⟨1, 2⟩, ⟨3, 1⟩, ⟨3, 3⟩]

/-- What `sort.Slice` can do to a slice: stop, call `less(i, j)` and go on
according to the answer (first the steps after `true`, then those after
`false`), or call `swap(i, j)` and go on. -/
inductive SortSteps where
  | done : SortSteps
  | less : Nat → Nat → SortSteps → SortSteps → SortSteps
  | swap : Nat → Nat → SortSteps → SortSteps

/-- The swapper of `sort.Slice`: exchanges `data[i]` and `data[j]`. An index
out of range makes the Go program stop; the slice is then left as it is. -/
def swapAt (data : List Point) (i j : Nat) : List Point :=
  match data[i]?, data[j]? with
  | some a, some b => (data.set i b).set j a
  | _, _ => data

/-- The slice after the steps of `sort.Slice` have run on it, `less` being the
closure of line 39 on the two elements read. -/
def runSort (less : Point → Point → Bool) : SortSteps → List Point → List Point
  | .done, data => data
  | .less i j yes no, data =>
    match data[i]?, data[j]? with
    | some p, some q => if less p q then runSort less yes data else runSort less no data
    | _, _ => data
  | .swap i j next, data => runSort less next (swapAt data i j)

/-- The inner loop of `insertionSortLessFunc` started at `j`,
`for ; j > 0 && less(j, j-1); j-- { swap(j, j-1) }`, followed by `next`. -/
def innerSteps (next : SortSteps) : Nat → SortSteps
  | 0 => next
  | j + 1 => .less (j + 1) j (.swap (j + 1) j (innerSteps next j)) next

/-- The outer loop of `insertionSortLessFunc`, `for i := 1; i < n; i++`, with
`k` iterations left and the counter at `i`. -/
def outerSteps : Nat → Nat → SortSteps
  | 0, _ => .done
  | k + 1, i => innerSteps (outerSteps k (i + 1)) i

/-- The steps of `sort.Slice` on a slice of `n` elements, `n` at most 12: the
insertion sort. -/
def insertionSteps (n : Nat) : SortSteps := outerSteps (n - 1) 1

/-- The two arrays the function works on: the one behind the caller's slice
and the parameter `points`, and the one behind the local slice `hull` (the top
of the stack first). -/
structure Memory where
  points : List Point
  hull : List Point

/-- The source's `grahamScan` as a run over the memory, returning the final
memory and the returned slice. The guard of lines 17-19 returns `points` and
writes nothing; the anchor loop only reads; `sort.Slice` (line 39) swaps inside
the array of `points`; lines 43-50 read `points` and write `hull` only. -/
def grahamScanRun (steps : Nat → SortSteps) (caller : List Point) : Memory × List Point :=
  let m0 : Memory := ⟨caller, []⟩
  if m0.points.length < 3 then (m0, m0.points)
  else
    match m0.points with
    | [] => (m0, [])
    | p0 :: _ =>
      let anchor := selectAnchor p0 m0.points
      let m1 : Memory :=
        ⟨runSort (sortByPolarAngle anchor) (steps m0.points.length) m0.points, m0.hull⟩
      match m1.points with
      | s0 :: s1 :: rest =>
        let m2 : Memory := ⟨m1.points, scanLoop [s1, s0] rest⟩
        (m2, m2.hull.reverse)
      | _ => (m1, [])

/-- A `float64`: `fin k` is the finite value `k * 2^-1074` (every finite double
is such a multiple, the least positive one being `2^-1074`), then the two
infinities and NaN. The two zeros are the one value `fin 0`. -/
inductive F64 where
  | fin : Int → F64
  | posInf : F64
  | negInf : F64
  | nan : F64
deriving DecidableEq, Repr

namespace F64

/-- The number of binary digits of `a`; the first argument is fuel, and `a`
itself is enough. -/
def bitLength : Nat → Nat → Nat
  | 0, _ => 0
  | fuel + 1, a => if a = 0 then 0 else bitLength fuel (a / 2) + 1

/-- Rounding to nearest, ties to even, of the magnitude `a * 2^-shift` (in
units of `2^-1074`) to 53 significant bits, and to a whole number of units in
the subnormal range. The result is in units of `2^-1074`. -/
def roundNat (a shift : Nat) : Nat :=
  let drop := max shift (bitLength a a - 53)
  let q := a / 2 ^ drop
  let rem := a % 2 ^ drop
  if 2 ^ drop < 2 * rem ∨ (2 * rem = 2 ^ drop ∧ q % 2 = 1) then (q + 1) * 2 ^ (drop - shift)
  else q * 2 ^ (drop - shift)

/-- The `float64` nearest to `num * 2^-shift` units of `2^-1074`: a rounded
magnitude of `2^1024` or more (`2^2098` units) overflows to an infinity. -/
def round (num : Int) (shift : Nat) : F64 :=
  let r := roundNat num.natAbs shift
  if 2 ^ 2098 ≤ r then (if num < 0 then negInf else posInf)
  else fin (if num < 0 then -(r : Int) else (r : Int))

/-- The `float64` nearest to the integer `n`. -/
def ofInt (n : Int) : F64 := round (n * 2 ^ 1074) 0

/-- The constant `0` of the source. -/
def zero : F64 := fin 0

/-- The `float64` subtraction `a - b`. -/
def sub : F64 → F64 → F64
  | nan, _ => nan
  | _, nan => nan
  | fin a, fin b => round (a - b) 0
  | fin _, posInf => negInf
  | fin _, negInf => posInf
  | posInf, fin _ => posInf
  | negInf, fin _ => negInf
  | posInf, posInf => nan
  | negInf, negInf => nan
  | posInf, negInf => posInf
  | negInf, posInf => negInf

/-- The `float64` multiplication `a * b`. -/
def mul : F64 → F64 → F64
  | nan, _ => nan
  | _, nan => nan
  | fin a, fin b => round (a * b) 1074
  | fin a, posInf => if a = 0 then nan else if 0 < a then posInf else negInf
  | fin a, negInf => if a = 0 then nan else if 0 < a then negInf else posInf
  | posInf, fin b => if b = 0 then nan else if 0 < b then posInf else negInf
  | negInf, fin b => if b = 0 then nan else if 0 < b then negInf else posInf
  | posInf, posInf => posInf
  | negInf, negInf => posInf
  | posInf, negInf => negInf
  | negInf, posInf => negInf

/-- The `float64` comparison `a < b`, false when an operand is NaN. -/
def lt : F64 → F64 → Bool
  | fin a, fin b => decide (a < b)
  | fin _, posInf => true
  | negInf, fin _ => true
  | negInf, posInf => true
  | _, _ => false

/-- The `float64` comparison `a <= b`, false when an operand is NaN. -/
def le : F64 → F64 → Bool
  | fin a, fin b => decide (a ≤ b)
  | fin _, posInf => true
  | negInf, fin _ => true
  | negInf, posInf => true
  | posInf, posInf => true
  | negInf, negInf => true
  | _, _ => false

/-- The `float64` comparison `a == b`, false when an operand is NaN. -/
def eq : F64 → F64 → Bool
  | fin a, fin b => decide (a = b)
  | posInf, posInf => true
  | negInf, negInf => true
  | _, _ => false

end F64

namespace IEEE

/-- The source's `type Point struct { x, y float64 }`. -/
structure Point where
  x : F64
  y : F64
deriving DecidableEq, Repr

/-- The source's `crossProduct(p, q, r)` in `float64` arithmetic:
`(q.x-p.x)*(r.y-p.y) - (q.y-p.y)*(r.x-p.x)`, four subtractions and two
multiplications, each rounded. -/
def crossProduct (p q r : Point) : F64 :=
  F64.sub (F64.mul (F64.sub q.x p.x) (F64.sub r.y p.y))
    (F64.mul (F64.sub q.y p.y) (F64.sub r.x p.x))

/-- The anchor loop of `grahamScan` (lines 24-29) on `float64` coordinates. -/
def selectAnchor : Point → List Point → Point
  | anchor, [] => anchor
  | anchor, p :: ps =>
    if F64.lt p.y anchor.y || (F64.eq p.y anchor.y && F64.lt p.x anchor.x) then selectAnchor p ps
    else selectAnchor anchor ps

/-- The closure `sortByPolarAngle` (lines 32-38) on `float64` coordinates. -/
def sortByPolarAngle (anchor p q : Point) : Bool :=
  let cp := crossProduct anchor p q
  if F64.eq cp F64.zero then F64.lt p.x q.x else F64.lt F64.zero cp

/-- The pop loop of lines 46-48 on `float64` coordinates, the stack with its
top at the head: a NaN cross product fails the test `<= 0`. -/
def popLoop (p : Point) : List Point → List Point
  | b :: a :: rest =>
    if F64.le (crossProduct a b p) F64.zero then popLoop p (a :: rest) else b :: a :: rest
  | hull => hull

/-- The scan loop of lines 45-50 on `float64` coordinates. -/
def scanLoop : List Point → List Point → List Point
  | hull, [] => hull
  | hull, p :: ps => scanLoop (p :: popLoop p hull) ps

/-- The slice after `sort.Slice` (lines 24-41) on `float64` coordinates. -/
def sortedPoints (sortSlice : (Point → Point → Bool) → List Point → List Point)
    (points : List Point) : List Point :=
  match points with
  | [] => []
  | p0 :: _ => sortSlice (sortByPolarAngle (selectAnchor p0 points)) points

/-- The source's `grahamScan` on `float64` coordinates, over a given
`sort.Slice`. -/
def grahamScanWith (sortSlice : (Point → Point → Bool) → List Point → List Point)
    (points : List Point) : List Point :=
  if points.length < 3 then points
  else
    match sortedPoints sortSlice points with
    | s0 :: s1 :: rest => (scanLoop [s1, s0] rest).reverse
    | _ => []

/-- The source's `grahamScan` on `float64` coordinates with the insertion sort
Go runs on at most 12 points. -/
def grahamScan (points : List Point) : List Point :=
  grahamScanWith insertionSort points

/-- Every three elements next to each other on the stack (top at the head)
fail the pop test, read from the bottom of the stack to its top. -/
def StackTurns : List Point → Prop
  | c :: b :: a :: rest =>
    F64.le (crossProduct a b c) F64.zero = false ∧ StackTurns (b :: a :: rest)
  | _ => True

/-- The point whose coordinates are the doubles nearest to two integers. -/
def ofInts (x y : Int) : Point := ⟨F64.ofInt x, F64.ofInt y⟩

end IEEE

/-! ## Auxiliary lemmas -/

theorem insertBack_perm {α : Type} (less : α → α → Bool) (x : α) (l : List α) :
    (insertBack less x l).Perm (x :: l) := by
  induction l with
  | nil => simp [insertBack]
  | cons y ys ih =>
    simp only [insertBack]
    split
    · exact (List.Perm.cons y ih).trans (List.Perm.swap x y ys)
    · exact List.Perm.refl _

theorem insertionSortAux_perm {α : Type} (less : α → α → Bool) (acc l : List α) :
    (insertionSortAux less acc l).Perm (acc ++ l) := by
  induction l generalizing acc with
  | nil => simp [insertionSortAux]
  | cons x xs ih =>
    simp only [insertionSortAux]
    refine (ih (insertBack less x acc)).trans ?_
    refine ((insertBack_perm less x acc).append_right xs).trans ?_
    have hmid : (acc ++ x :: xs).Perm (x :: (acc ++ xs)) := List.perm_middle
    simpa using hmid.symm

theorem insertionSort_perm {α : Type} (less : α → α → Bool) (l : List α) :
    (insertionSort less l).Perm l := by
  simpa [insertionSort] using insertionSortAux_perm less [] l

theorem popLoop_suffix (p : Point) (hull : List Point) : popLoop p hull <:+ hull := by
  induction hull with
  | nil => simp [popLoop]
  | cons b t ih =>
    cases t with
    | nil => simp [popLoop]
    | cons a rest =>
      simp only [popLoop]
      split
      · exact ih.trans (List.suffix_cons b _)
      · exact List.suffix_refl _

theorem scanLoop_sublist (hull ps : List Point) :
    (scanLoop hull ps).Sublist (ps.reverse ++ hull) := by
  induction ps generalizing hull with
  | nil => simp [scanLoop]
  | cons p ps ih =>
    simp only [scanLoop, List.reverse_cons, List.append_assoc, List.singleton_append]
    refine (ih _).trans ?_
    exact List.Sublist.append_left ((popLoop_suffix p hull).sublist.cons₂ p) _

theorem popLoop_ne_nil (p : Point) (hull : List Point) (h : hull ≠ []) :
    popLoop p hull ≠ [] := by
  induction hull with
  | nil => exact absurd rfl h
  | cons b t ih =>
    cases t with
    | nil => simp [popLoop]
    | cons a rest =>
      simp only [popLoop]
      split
      · exact ih (by simp)
      · simp

theorem scanLoop_length (hull ps : List Point) (h : 2 ≤ hull.length) :
    2 ≤ (scanLoop hull ps).length := by
  induction ps generalizing hull with
  | nil => simpa [scanLoop] using h
  | cons p ps ih =>
    simp only [scanLoop]
    apply ih
    have : popLoop p hull ≠ [] := popLoop_ne_nil p hull (by intro h0; simp [h0] at h)
    have := List.length_pos.mpr this
    simp; omega

theorem sortedPoints_perm (sortSlice : (Point → Point → Bool) → List Point → List Point)
    (hperm : ∀ less l, (sortSlice less l).Perm l) (points : List Point) :
    (sortedPoints sortSlice points).Perm points := by
  cases points with
  | nil => simp [sortedPoints]
  | cons p0 t => exact hperm _ _

theorem grahamScanWith_subperm (sortSlice : (Point → Point → Bool) → List Point → List Point)
    (hperm : ∀ less l, (sortSlice less l).Perm l) (points : List Point) :
    (grahamScanWith sortSlice points).Subperm points := by
  unfold grahamScanWith
  split
  · exact List.Subperm.refl _
  · have hp := sortedPoints_perm sortSlice hperm points
    split
    · rename_i s0 s1 rest heq
      rw [heq] at hp
      refine List.Subperm.trans ?_ hp.subperm
      have := (scanLoop_sublist [s1, s0] rest).reverse
      simp at this
      exact this.subperm
    · exact List.nil_subperm

theorem popLoop_length_le (p : Point) (hull : List Point) :
    (popLoop p hull).length ≤ hull.length := by
  induction hull with
  | nil => simp [popLoop]
  | cons b t ih =>
    cases t with
    | nil => simp [popLoop]
    | cons a rest =>
      simp only [popLoop]
      split
      · exact Nat.le_succ_of_le ih
      · exact Nat.le_refl _

theorem popLoopChecked_eq (p : Point) (fuel : Nat) (st : List Point)
    (h : st.length < fuel) :
    popLoopChecked p fuel st.reverse = .ok (popLoop p st).reverse := by
  induction fuel generalizing st with
  | zero => omega
  | succ fuel ih =>
    match st with
    | [] => simp [popLoopChecked, popLoop]
    | [b] => simp [popLoopChecked, popLoop]
    | b :: a :: rest =>
      have hlen : (b :: a :: rest).reverse.length = rest.length + 2 := by simp
      have hrev : (b :: a :: rest).reverse = rest.reverse ++ [a, b] := by simp
      have ha : (b :: a :: rest).reverse[rest.length]? = some a := by
        rw [hrev, List.getElem?_append_right (by simp)]; simp
      have hb : (b :: a :: rest).reverse[rest.length + 1]? = some b := by
        rw [hrev, List.getElem?_append_right (by simp)]; simp
      have ht : (b :: a :: rest).reverse.take (rest.length + 1) = (a :: rest).reverse := by
        simp [List.take_append_eq_append_take]
      rw [popLoopChecked, hlen]
      simp only [Nat.le_add_left, if_true, Nat.add_sub_cancel, Nat.add_succ_sub_one, ha, hb, ht]
      simp only [popLoop]
      split
      · exact ih (a :: rest) (by simp at h ⊢; omega)
      · rfl

theorem scanLoopChecked_eq (fuel : Nat) (points : List Point) (k i : Nat) (st : List Point)
    (hik : i + k ≤ points.length) (hst : st.length ≤ i) (hfuel : points.length ≤ fuel) :
    scanLoopChecked fuel points k i st.reverse
      = .ok (scanLoop st ((points.drop i).take k)).reverse := by
  induction k generalizing i st with
  | zero => simp [scanLoopChecked, scanLoop]
  | succ k ih =>
    have hi : i < points.length := by omega
    have hd : (points.drop i).take (k + 1) = points[i] :: (points.drop (i + 1)).take k := by
      rw [List.drop_eq_getElem_cons hi, List.take_succ_cons]
    rw [scanLoopChecked, List.getElem?_eq_getElem hi, hd]
    simp only [scanLoop]
    rw [popLoopChecked_eq _ _ _ (by omega)]
    simp only
    have := ih (i + 1) (points[i] :: popLoop points[i] st) (by omega)
      (by have := popLoop_length_le points[i] st; simp; omega)
    simpa using this

theorem stackTurns_tail (x : Point) (t : List Point) (h : StackTurns (x :: t)) :
    StackTurns t := by
  match t, h with
  | [], _ => trivial
  | [_], _ => trivial
  | _ :: _ :: _, h => exact h.2

theorem stackTurns_of_suffix (s t : List Point) (hs : s <:+ t) (h : StackTurns t) :
    StackTurns s := by
  induction t with
  | nil => simp at hs; subst hs; trivial
  | cons x t ih =>
    rcases List.suffix_cons_iff.mp hs with h1 | h1
    · subst h1; exact h
    · exact ih h1 (stackTurns_tail x t h)

theorem popLoop_top (p : Point) (st : List Point) (b a : Point) (rest : List Point)
    (h : popLoop p st = b :: a :: rest) : 0 < crossProduct a b p := by
  induction st with
  | nil => simp [popLoop] at h
  | cons y t ih =>
    cases t with
    | nil => simp [popLoop] at h
    | cons z u =>
      simp only [popLoop] at h
      split at h
      · exact ih h
      · rename_i hc
        simp only [List.cons.injEq] at h
        obtain ⟨h1, h2, _⟩ := h
        subst h1 h2
        omega

theorem stackTurns_push (p : Point) (st : List Point) (h : StackTurns st) :
    StackTurns (p :: popLoop p st) := by
  have hs := stackTurns_of_suffix _ _ (popLoop_suffix p st) h
  match hp : popLoop p st with
  | [] => trivial
  | [_] => trivial
  | b :: a :: rest =>
    rw [hp] at hs
    exact ⟨popLoop_top p st b a rest hp, hs⟩

theorem scanLoop_turns (st ps : List Point) (h : StackTurns st) :
    StackTurns (scanLoop st ps) := by
  induction ps generalizing st with
  | nil => simpa [scanLoop] using h
  | cons p ps ih => exact ih _ (stackTurns_push p st h)

theorem stackTurns_append (l : List Point) (c b a : Point) (l2 : List Point)
    (h : StackTurns (l ++ c :: b :: a :: l2)) : 0 < crossProduct a b c := by
  induction l with
  | nil => exact h.1
  | cons x l ih => exact ih (stackTurns_tail x _ h)

theorem selectAnchor_mem (a : Point) (l : List Point) :
    selectAnchor a l = a ∨ selectAnchor a l ∈ l := by
  induction l generalizing a with
  | nil => left; rfl
  | cons p ps ih =>
    simp only [selectAnchor]
    split
    · rcases ih p with h | h
      · right; rw [h]; exact List.mem_cons_self _ _
      · right; exact List.mem_cons_of_mem _ h
    · rcases ih a with h | h
      · left; exact h
      · right; exact List.mem_cons_of_mem _ h

theorem selectAnchor_le (a : Point) (l : List Point) :
    LexLE (selectAnchor a l) a ∧ ∀ p ∈ l, LexLE (selectAnchor a l) p := by
  induction l generalizing a with
  | nil => exact ⟨Or.inr ⟨rfl, le_refl _⟩, by simp⟩
  | cons q qs ih =>
    simp only [selectAnchor]
    split
    · rename_i hc
      obtain ⟨h1, h2⟩ := ih q
      refine ⟨?_, ?_⟩
      · unfold LexLE at h1 ⊢; omega
      · intro p hp
        rcases List.mem_cons.mp hp with rfl | hp
        · exact h1
        · exact h2 p hp
    · rename_i hc
      obtain ⟨h1, h2⟩ := ih a
      refine ⟨h1, ?_⟩
      intro p hp
      rcases List.mem_cons.mp hp with rfl | hp
      · unfold LexLE at h1 ⊢; omega
      · exact h2 p hp

theorem sortByPolarAngle_iff (a p q : Point) :
    sortByPolarAngle a p q = true ↔
      (crossProduct a p q = 0 ∧ p.x < q.x) ∨ 0 < crossProduct a p q := by
  unfold sortByPolarAngle
  by_cases h : crossProduct a p q = 0
  · simp [h]
  · simp [h]

/-- Transitivity of the comparator in coordinates relative to the anchor. -/
theorem less_trans_core (p1 p2 q1 q2 r1 r2 : Int)
    (hp : 0 < p2 ∨ (p2 = 0 ∧ 0 < p1)) (hq : 0 < q2 ∨ (q2 = 0 ∧ 0 < q1))
    (hr : 0 < r2 ∨ (r2 = 0 ∧ 0 < r1))
    (hpq : (p1 * q2 - p2 * q1 = 0 ∧ p1 < q1) ∨ 0 < p1 * q2 - p2 * q1)
    (hqr : (q1 * r2 - q2 * r1 = 0 ∧ q1 < r1) ∨ 0 < q1 * r2 - q2 * r1) :
    (p1 * r2 - p2 * r1 = 0 ∧ p1 < r1) ∨ 0 < p1 * r2 - p2 * r1 := by
  have id2 : q2 * (p1 * r2 - p2 * r1) = p2 * (q1 * r2 - q2 * r1) + r2 * (p1 * q2 - p2 * q1) := by
    ring
  have id1 : q1 * (p1 * r2 - p2 * r1) = p1 * (q1 * r2 - q2 * r1) + r1 * (p1 * q2 - p2 * q1) := by
    ring
  have hp2 : 0 ≤ p2 := by omega
  have hr2 : 0 ≤ r2 := by omega
  rcases hpq with ⟨hpq0, hx1⟩ | hpq
  · rcases hqr with ⟨hqr0, hx2⟩ | hqr
    · left
      refine ⟨?_, by omega⟩
      rw [hpq0, hqr0] at id1 id2
      simp only [mul_zero, add_zero] at id1 id2
      rcases hq with hq | ⟨_, hq⟩
      · rcases mul_eq_zero.mp id2 with h | h
        · omega
        · exact h
      · rcases mul_eq_zero.mp id1 with h | h
        · omega
        · exact h
    · right
      rw [hpq0] at id1 id2
      simp only [mul_zero, add_zero] at id1 id2
      rcases hq with hq | ⟨hq0, hq⟩
      · -- p is on the ray of q, so p2 > 0
        have hp2pos : 0 < p2 := by
          rcases hp with hp | ⟨hp0, hp⟩
          · exact hp
          · exfalso
            rw [hp0] at hpq0
            have : p1 * q2 = 0 := by linarith
            rcases mul_eq_zero.mp this with h | h <;> omega
        have : 0 < q2 * (p1 * r2 - p2 * r1) := by rw [id2]; exact mul_pos hp2pos hqr
        exact pos_of_mul_pos_left (by rwa [mul_comm] at this) (le_of_lt hq)
      · have hp20 : p2 = 0 := by
          rw [hq0] at hpq0
          have : p2 * q1 = 0 := by linarith
          rcases mul_eq_zero.mp this with h | h <;> omega
        have hp1 : 0 < p1 := by omega
        have : 0 < q1 * (p1 * r2 - p2 * r1) := by rw [id1]; exact mul_pos hp1 hqr
        exact pos_of_mul_pos_left (by rwa [mul_comm] at this) (le_of_lt hq)
  · right
    rcases hq with hq | ⟨hq0, hq⟩
    · have hr2pos : 0 < r2 := by
        rcases hr with hr | ⟨hr0, hr⟩
        · exact hr
        · exfalso
          rw [hr0] at hqr
          have h1 : 0 < q2 * r1 := mul_pos hq hr
          rcases hqr with ⟨h, _⟩ | h <;> linarith
      have hcqr : 0 ≤ q1 * r2 - q2 * r1 := by
        rcases hqr with ⟨h, _⟩ | h <;> omega
      have : 0 < q2 * (p1 * r2 - p2 * r1) := by
        rw [id2]
        have h1 : 0 ≤ p2 * (q1 * r2 - q2 * r1) := mul_nonneg hp2 hcqr
        have h2 : 0 < r2 * (p1 * q2 - p2 * q1) := mul_pos hr2pos hpq
        linarith
      exact pos_of_mul_pos_left (by rwa [mul_comm] at this) (le_of_lt hq)
    · exfalso
      rw [hq0] at hpq
      have : 0 ≤ p2 * q1 := mul_nonneg hp2 (le_of_lt hq)
      linarith

theorem crossProduct_self (a : Point) : crossProduct a a a = 0 := by
  unfold crossProduct; ring

theorem scanLoop_coincident (a : Point) (ps : List Point) (h : ∀ p ∈ ps, p = a) :
    scanLoop [a, a] ps = [a, a] := by
  induction ps with
  | nil => rfl
  | cons p ps ih =>
    have hp : p = a := h p (List.mem_cons_self _ _)
    subst hp
    simp only [scanLoop, popLoop, crossProduct_self, le_refl, if_true]
    exact ih (fun q hq => h q (List.mem_cons_of_mem _ hq))

theorem swapAt_perm (data : List Point) (i j : Nat) : (swapAt data i j).Perm data := by
  unfold swapAt
  match hi : data[i]?, hj : data[j]? with
  | some a, some b =>
    simp only
    obtain ⟨hil, hia⟩ := List.getElem?_eq_some_iff.mp hi
    obtain ⟨hjl, hjb⟩ := List.getElem?_eq_some_iff.mp hj
    rw [List.perm_iff_count]
    intro c
    have hjl2 : j < (data.set i b).length := by simpa using hjl
    rw [List.count_set _ _ _ _ hjl2, List.count_set _ _ _ _ hil]
    have hget : (data.set i b)[j] = b := by
      rw [List.getElem_set]
      split
      · rfl
      · exact hjb
    rw [hget, hia]
    have hpos : (if (a == c) = true then 1 else 0) ≤ data.count c := by
      split
      · rename_i hac
        have : a = c := by simpa using hac
        subst this
        exact List.count_pos_iff.mpr (hia ▸ List.getElem_mem hil)
      · exact Nat.zero_le _
    omega
  | none, _ => exact List.Perm.refl _
  | some _, none => exact List.Perm.refl _

theorem runSort_perm (less : Point → Point → Bool) (steps : SortSteps) (data : List Point) :
    (runSort less steps data).Perm data := by
  induction steps generalizing data with
  | done => exact List.Perm.refl _
  | less i j yes no ihy ihn =>
    simp only [runSort]
    split
    · split
      · exact ihy data
      · exact ihn data
    · exact List.Perm.refl _
  | swap i j next ih =>
    simp only [runSort]
    exact (ih _).trans (swapAt_perm data i j)

theorem swapAt_cons (a : Point) (l : List Point) (i j : Nat) :
    swapAt (a :: l) (i + 1) (j + 1) = a :: swapAt l i j := by
  unfold swapAt
  simp only [List.getElem?_cons_succ]
  match l[i]?, l[j]? with
  | some _, some _ => simp
  | none, _ => rfl
  | some _, none => rfl

theorem swapAt_adjacent (A : List Point) (y x : Point) (T : List Point) :
    swapAt (A ++ y :: x :: T) (A.length + 1) A.length = A ++ x :: y :: T := by
  induction A with
  | nil => simp [swapAt]
  | cons a A ih =>
    simp only [List.cons_append, List.length_cons]
    rw [swapAt_cons, ih]

theorem insertBack_length {α : Type} (less : α → α → Bool) (x : α) (l : List α) :
    (insertBack less x l).length = l.length + 1 := by
  induction l with
  | nil => rfl
  | cons y ys ih =>
    simp only [insertBack]
    split
    · simp [ih]
    · simp

theorem runSort_innerSteps (less : Point → Point → Bool) (next : SortSteps) (x : Point)
    (P T : List Point) :
    runSort less (innerSteps next P.length) (P.reverse ++ x :: T)
      = runSort less next ((insertBack less x P).reverse ++ T) := by
  induction P generalizing T with
  | nil => simp [innerSteps, insertBack]
  | cons y P ih =>
    have hdata : (y :: P).reverse ++ x :: T = P.reverse ++ y :: x :: T := by simp
    have hx : (P.reverse ++ y :: x :: T)[P.length + 1]? = some x := by
      rw [List.getElem?_append_right (by simp)]; simp
    have hy : (P.reverse ++ y :: x :: T)[P.length]? = some y := by
      rw [List.getElem?_append_right (by simp)]; simp
    rw [hdata]
    simp only [List.length_cons, innerSteps, runSort, hx, hy, insertBack]
    by_cases h : less x y = true
    · have hsw := swapAt_adjacent P.reverse y x T
      rw [List.length_reverse] at hsw
      simp only [h, if_true, hsw]
      rw [ih (y :: T)]
      simp
    · simp [h]

theorem runSort_outerSteps (less : Point → Point → Bool) (A xs : List Point) :
    runSort less (outerSteps xs.length A.length) (A.reverse ++ xs)
      = insertionSortAux less A xs := by
  induction xs generalizing A with
  | nil => simp [outerSteps, runSort, insertionSortAux]
  | cons x xs ih =>
    simp only [List.length_cons, outerSteps, insertionSortAux]
    rw [runSort_innerSteps, ← insertBack_length less x A, ih]

theorem runSort_insertionSteps (less : Point → Point → Bool) (l : List Point) :
    runSort less (insertionSteps l.length) l = insertionSort less l := by
  cases l with
  | nil => rfl
  | cons x0 xs =>
    have := runSort_outerSteps less [x0] xs
    simpa [insertionSteps, insertionSort, insertionSortAux, insertBack] using this

theorem grahamScanRun_returns (steps : Nat → SortSteps) (caller : List Point) :
    (grahamScanRun steps caller).2
      = grahamScanWith (fun less l => runSort less (steps l.length) l) caller := by
  unfold grahamScanRun grahamScanWith sortedPoints
  simp only
  split
  · rfl
  · cases caller with
    | nil => rfl
    | cons p0 t =>
      simp only
      split <;> rename_i heq
      · rw [heq]
      · rfl

theorem F64.not_le_zero (v : F64) (h : F64.le v F64.zero = false) :
    F64.lt F64.zero v = true ∨ v = F64.nan := by
  cases v with
  | fin k =>
    left
    simp only [F64.le, F64.zero, decide_eq_false_iff_not, not_le] at h
    simpa [F64.lt, F64.zero] using h
  | posInf => left; rfl
  | negInf => simp [F64.le, F64.zero] at h
  | nan => right; rfl

theorem ieee_stackTurns_tail (x : IEEE.Point) (t : List IEEE.Point)
    (h : IEEE.StackTurns (x :: t)) : IEEE.StackTurns t := by
  match t, h with
  | [], _ => trivial
  | [_], _ => trivial
  | _ :: _ :: _, h => exact h.2

theorem ieee_popLoop_suffix (p : IEEE.Point) (hull : List IEEE.Point) :
    IEEE.popLoop p hull <:+ hull := by
  induction hull with
  | nil => simp [IEEE.popLoop]
  | cons b t ih =>
    cases t with
    | nil => simp [IEEE.popLoop]
    | cons a rest =>
      simp only [IEEE.popLoop]
      split
      · exact ih.trans (List.suffix_cons b _)
      · exact List.suffix_refl _

theorem ieee_stackTurns_of_suffix (s t : List IEEE.Point) (hs : s <:+ t)
    (h : IEEE.StackTurns t) : IEEE.StackTurns s := by
  induction t with
  | nil => simp at hs; subst hs; trivial
  | cons x t ih =>
    rcases List.suffix_cons_iff.mp hs with h1 | h1
    · subst h1; exact h
    · exact ih h1 (ieee_stackTurns_tail x t h)

theorem ieee_popLoop_top (p : IEEE.Point) (st : List IEEE.Point) (b a : IEEE.Point)
    (rest : List IEEE.Point) (h : IEEE.popLoop p st = b :: a :: rest) :
    F64.le (IEEE.crossProduct a b p) F64.zero = false := by
  induction st with
  | nil => simp [IEEE.popLoop] at h
  | cons y t ih =>
    cases t with
    | nil => simp [IEEE.popLoop] at h
    | cons z u =>
      simp only [IEEE.popLoop] at h
      split at h
      · exact ih h
      · rename_i hc
        simp only [List.cons.injEq] at h
        obtain ⟨h1, h2, _⟩ := h
        subst h1 h2
        simpa using hc

theorem ieee_stackTurns_push (p : IEEE.Point) (st : List IEEE.Point)
    (h : IEEE.StackTurns st) : IEEE.StackTurns (p :: IEEE.popLoop p st) := by
  have hs := ieee_stackTurns_of_suffix _ _ (ieee_popLoop_suffix p st) h
  match hp : IEEE.popLoop p st with
  | [] => trivial
  | [_] => trivial
  | b :: a :: rest =>
    rw [hp] at hs
    exact ⟨ieee_popLoop_top p st b a rest hp, hs⟩

theorem ieee_scanLoop_turns (st ps : List IEEE.Point) (h : IEEE.StackTurns st) :
    IEEE.StackTurns (IEEE.scanLoop st ps) := by
  induction ps generalizing st with
  | nil => simpa [IEEE.scanLoop] using h
  | cons p ps ih => exact ih _ (ieee_stackTurns_push p st h)

theorem ieee_stackTurns_append (l : List IEEE.Point) (c b a : IEEE.Point)
    (l2 : List IEEE.Point) (h : IEEE.StackTurns (l ++ c :: b :: a :: l2)) :
    F64.le (IEEE.crossProduct a b c) F64.zero = false := by
  induction l with
  | nil => exact h.1
  | cons x l ih => exact ih (ieee_stackTurns_tail x _ h)

/-! ## The scenarios of the specification on which the code agrees -/

/-- The square with an interior point: the hull is the square, anchor first,
counter-clockwise. -/
theorem grahamScan_square :
    grahamScan [⟨0, 0⟩, ⟨4, 0⟩, ⟨4, 4⟩, ⟨0, 4⟩, ⟨2, 2⟩] = [⟨0, 0⟩, ⟨4, 0⟩, ⟨4, 4⟩, ⟨0, 4⟩] := by
  decide

/-- The triangle: all three points are kept. -/
theorem grahamScan_triangle :
    grahamScan [⟨0, 0⟩, ⟨1, 0⟩, ⟨0, 1⟩] = [⟨0, 0⟩, ⟨1, 0⟩, ⟨0, 1⟩] := by
  decide

/-- A duplicate of the anchor next to it is popped by the scan. -/
theorem grahamScan_duplicate :
    grahamScan [⟨0, 0⟩, ⟨0, 0⟩, ⟨1, 0⟩, ⟨0, 1⟩] = [⟨0, 0⟩, ⟨1, 0⟩, ⟨0, 1⟩] := by
  decide

/-- Two points: the guard returns them and the caller's array is untouched. -/
theorem grahamScanRun_two_points :
    (grahamScanRun insertionSteps [⟨5, 5⟩, ⟨2, 2⟩]).1.points = [⟨5, 5⟩, ⟨2, 2⟩] ∧
    (grahamScanRun insertionSteps [⟨5, 5⟩, ⟨2, 2⟩]).2 = [⟨5, 5⟩, ⟨2, 2⟩] := by
  decide

/-- On small integers the `float64` arithmetic is exact: the square with an
interior point gives the same hull as in exact arithmetic. -/
theorem ieee_grahamScan_square :
    IEEE.grahamScan [IEEE.ofInts 0 0, IEEE.ofInts 4 0, IEEE.ofInts 4 4, IEEE.ofInts 0 4,
        IEEE.ofInts 2 2]
      = [IEEE.ofInts 0 0, IEEE.ofInts 4 0, IEEE.ofInts 4 4, IEEE.ofInts 0 4] := by
  decide!

/-! ## The claims -/

/-- C1 (containment), evaluated where the code breaks it. On the four points
`(1,0), (1,2), (0,1), (1,1)` the function returns `(1,0), (1,1), (0,1)`: the
input point `(1,2)` lies strictly to the right of the hull edge from `(1,1)` to
`(0,1)`, so the returned polygon does not contain every input point. -/
theorem grahamScan_containment_fails :
    grahamScan [⟨1, 0⟩, ⟨1, 2⟩, ⟨0, 1⟩, ⟨1, 1⟩] = [⟨1, 0⟩, ⟨1, 1⟩, ⟨0, 1⟩] ∧
    crossProduct ⟨1, 1⟩ ⟨0, 1⟩ ⟨1, 2⟩ = -1 ∧
    ¬ Containment [⟨1, 0⟩, ⟨1, 2⟩, ⟨0, 1⟩, ⟨1, 1⟩]
        (grahamScan [⟨1, 0⟩, ⟨1, 2⟩, ⟨0, 1⟩, ⟨1, 1⟩]) := by
  decide

/-- C2 (strict convexity), evaluated where the code breaks it. On the four
points `(0,0), (0,2), (0,1), (1,0)` the function returns
`(0,0), (1,0), (0,2), (0,1)`, a hull of four vertices in which the consecutive
vertices `(0,2), (0,1), (0,0)` are collinear: the collinear point `(0,1)` is
kept on the boundary. -/
theorem grahamScan_convexity_fails :
    grahamScan [⟨0, 0⟩, ⟨0, 2⟩, ⟨0, 1⟩, ⟨1, 0⟩] = [⟨0, 0⟩, ⟨1, 0⟩, ⟨0, 2⟩, ⟨0, 1⟩] ∧
    crossProduct ⟨0, 2⟩ ⟨0, 1⟩ ⟨0, 0⟩ = 0 ∧
    3 ≤ (grahamScan [⟨0, 0⟩, ⟨0, 2⟩, ⟨0, 1⟩, ⟨1, 0⟩]).length ∧
    ¬ StrictlyConvex (grahamScan [⟨0, 0⟩, ⟨0, 2⟩, ⟨0, 1⟩, ⟨1, 0⟩]) := by
  decide

/-- C3 (anchor start), evaluated where the code breaks it. On the three points
`(0,1), (1,0), (2,1)` the anchor selected is `(1,0)`, the sort leaves the slice
as it is, and the returned hull starts with `(0,1)`, which is not a point of
least `y`. -/
theorem grahamScan_anchor_start_fails :
    selectAnchor ⟨0, 1⟩ [⟨0, 1⟩, ⟨1, 0⟩, ⟨2, 1⟩] = ⟨1, 0⟩ ∧
    sortedPoints insertionSort [⟨0, 1⟩, ⟨1, 0⟩, ⟨2, 1⟩] = [⟨0, 1⟩, ⟨1, 0⟩, ⟨2, 1⟩] ∧
    (grahamScan [⟨0, 1⟩, ⟨1, 0⟩, ⟨2, 1⟩]).head? = some ⟨0, 1⟩ ∧
    ¬ IsAnchor [⟨0, 1⟩, ⟨1, 0⟩, ⟨2, 1⟩] ⟨0, 1⟩ := by
  decide

/-- C4 (membership): for every `sort.Slice` that permutes the slice, every
vertex of the returned hull is an input point, and no point occurs more often
in the hull than in the input. -/
theorem grahamScan_membership
    (sortSlice : (Point → Point → Bool) → List Point → List Point)
    (hperm : ∀ less l, (sortSlice less l).Perm l) (points : List Point) :
    (∀ p ∈ grahamScanWith sortSlice points, p ∈ points) ∧
    (∀ p, (grahamScanWith sortSlice points).count p ≤ points.count p) :=
  ⟨fun _ hp => (grahamScanWith_subperm sortSlice hperm points).subset hp,
   fun p => (grahamScanWith_subperm sortSlice hperm points).count_le p⟩

/-- Witness of C4: the insertion sort permutes the slice, and the hull of the
square with an interior point is a sub-multiset of the input. -/
theorem grahamScan_membership_witness :
    (∀ (less : Point → Point → Bool) (l : List Point), (insertionSort less l).Perm l) ∧
    ((∀ p ∈ grahamScanWith insertionSort [⟨0, 0⟩, ⟨4, 0⟩, ⟨4, 4⟩, ⟨0, 4⟩, ⟨2, 2⟩],
        p ∈ [(⟨0, 0⟩ : Point), ⟨4, 0⟩, ⟨4, 4⟩, ⟨0, 4⟩, ⟨2, 2⟩]) ∧
     (∀ p, (grahamScanWith insertionSort [⟨0, 0⟩, ⟨4, 0⟩, ⟨4, 4⟩, ⟨0, 4⟩, ⟨2, 2⟩]).count p
        ≤ [(⟨0, 0⟩ : Point), ⟨4, 0⟩, ⟨4, 4⟩, ⟨0, 4⟩, ⟨2, 2⟩].count p)) :=
  ⟨fun less l => insertionSort_perm less l,
   grahamScan_membership insertionSort (fun less l => insertionSort_perm less l)
     [⟨0, 0⟩, ⟨4, 0⟩, ⟨4, 4⟩, ⟨0, 4⟩, ⟨2, 2⟩]⟩

/-- C5 (permutation invariance), evaluated where the code breaks it. The lists
`(0,0), (0,1), (0,2), (1,0)` and `(0,0), (0,2), (0,1), (1,0)` are permutations
of each other, of four points; the function returns `(0,0), (1,0), (0,2)` on
the first and `(0,0), (1,0), (0,2), (0,1)` on the second. -/
theorem grahamScan_permutation_fails :
    List.Perm [(⟨0, 0⟩ : Point), ⟨0, 2⟩, ⟨0, 1⟩, ⟨1, 0⟩] [⟨0, 0⟩, ⟨0, 1⟩, ⟨0, 2⟩, ⟨1, 0⟩] ∧
    grahamScan [⟨0, 0⟩, ⟨0, 1⟩, ⟨0, 2⟩, ⟨1, 0⟩] = [⟨0, 0⟩, ⟨1, 0⟩, ⟨0, 2⟩] ∧
    grahamScan [⟨0, 0⟩, ⟨0, 2⟩, ⟨0, 1⟩, ⟨1, 0⟩] = [⟨0, 0⟩, ⟨1, 0⟩, ⟨0, 2⟩, ⟨0, 1⟩] ∧
    grahamScan [⟨0, 0⟩, ⟨0, 2⟩, ⟨0, 1⟩, ⟨1, 0⟩] ≠ grahamScan [⟨0, 0⟩, ⟨0, 1⟩, ⟨0, 2⟩, ⟨1, 0⟩] := by
  refine ⟨?_, by decide, by decide, by decide⟩
  exact List.Perm.cons _ (List.Perm.swap _ _ _)

/-- C6 (idempotence), evaluated where the code breaks it. On the four points
`(0,2), (1,0), (0,0), (0,1)` the function returns `H = (1,0), (0,2), (0,1)`, and
on `H` it returns `(0,2), (0,1), (1,0)`, a different sequence. -/
theorem grahamScan_idempotence_fails :
    grahamScan [⟨0, 2⟩, ⟨1, 0⟩, ⟨0, 0⟩, ⟨0, 1⟩] = [⟨1, 0⟩, ⟨0, 2⟩, ⟨0, 1⟩] ∧
    grahamScan [⟨1, 0⟩, ⟨0, 2⟩, ⟨0, 1⟩] = [⟨0, 2⟩, ⟨0, 1⟩, ⟨1, 0⟩] ∧
    grahamScan (grahamScan [⟨0, 2⟩, ⟨1, 0⟩, ⟨0, 0⟩, ⟨0, 1⟩])
      ≠ grahamScan [⟨0, 2⟩, ⟨1, 0⟩, ⟨0, 0⟩, ⟨0, 1⟩] := by
  decide

/-- C7 (non-degenerate size), evaluated where the code breaks it. The four
points `(0,1), (1,0), (0,0), (0,2)` are not all collinear, and the function
returns the two points `(1,0), (0,2)`. -/
theorem grahamScan_nondegenerate_size_fails :
    3 ≤ [(⟨0, 1⟩ : Point), ⟨1, 0⟩, ⟨0, 0⟩, ⟨0, 2⟩].length ∧
    NotAllCollinear [⟨0, 1⟩, ⟨1, 0⟩, ⟨0, 0⟩, ⟨0, 2⟩] ∧
    grahamScan [⟨0, 1⟩, ⟨1, 0⟩, ⟨0, 0⟩, ⟨0, 2⟩] = [⟨1, 0⟩, ⟨0, 2⟩] ∧
    (grahamScan [⟨0, 1⟩, ⟨1, 0⟩, ⟨0, 0⟩, ⟨0, 2⟩]).length < 3 := by
  decide

/-- C8 (size bounds): for every `sort.Slice` that permutes the slice and every
input of `n` points, the returned hull has at least `min n 1` and at most `n`
points. -/
theorem grahamScan_size_bounds
    (sortSlice : (Point → Point → Bool) → List Point → List Point)
    (hperm : ∀ less l, (sortSlice less l).Perm l) (points : List Point) :
    min points.length 1 ≤ (grahamScanWith sortSlice points).length ∧
    (grahamScanWith sortSlice points).length ≤ points.length := by
  refine ⟨?_, (grahamScanWith_subperm sortSlice hperm points).length_le⟩
  unfold grahamScanWith
  split
  · exact Nat.min_le_left _ _
  · rename_i hlen
    have hp := (sortedPoints_perm sortSlice hperm points).length_eq
    split
    · rename_i s0 s1 rest heq
      have := scanLoop_length [s1, s0] rest (by simp)
      rw [List.length_reverse]
      exact le_trans (Nat.min_le_right _ _) (by omega)
    · rename_i hsorted
      exfalso
      match hs : sortedPoints sortSlice points, hsorted with
      | [], _ => rw [hs] at hp; simp at hp; omega
      | [_], _ => rw [hs] at hp; simp at hp; omega
      | s0 :: s1 :: rest, hsorted => exact hsorted s0 s1 rest rfl

/-- Witness of C8: the insertion sort permutes the slice, and the hull of the
square with an interior point has between 1 and 5 points. -/
theorem grahamScan_size_bounds_witness :
    (∀ (less : Point → Point → Bool) (l : List Point), (insertionSort less l).Perm l) ∧
    (min [(⟨0, 0⟩ : Point), ⟨4, 0⟩, ⟨4, 4⟩, ⟨0, 4⟩, ⟨2, 2⟩].length 1
        ≤ (grahamScanWith insertionSort [⟨0, 0⟩, ⟨4, 0⟩, ⟨4, 4⟩, ⟨0, 4⟩, ⟨2, 2⟩]).length ∧
     (grahamScanWith insertionSort [⟨0, 0⟩, ⟨4, 0⟩, ⟨4, 4⟩, ⟨0, 4⟩, ⟨2, 2⟩]).length
        ≤ [(⟨0, 0⟩ : Point), ⟨4, 0⟩, ⟨4, 4⟩, ⟨0, 4⟩, ⟨2, 2⟩].length) :=
  ⟨fun less l => insertionSort_perm less l,
   grahamScan_size_bounds insertionSort (fun less l => insertionSort_perm less l)
     [⟨0, 0⟩, ⟨4, 0⟩, ⟨4, 4⟩, ⟨0, 4⟩, ⟨2, 2⟩]⟩

/-- C9 (degenerate inputs): whatever `sort.Slice` does, an input of fewer than
three points is returned as it is, the same points in the same order; the
empty input gives the empty output. -/
theorem grahamScan_degenerate
    (sortSlice : (Point → Point → Bool) → List Point → List Point)
    (points : List Point) (h : points.length < 3) :
    grahamScanWith sortSlice points = points ∧ grahamScanWith sortSlice [] = [] := by
  constructor
  · unfold grahamScanWith
    rw [if_pos h]
  · rfl

/-- Witness of C9: the two points `(5,5), (2,2)` come back unchanged. -/
theorem grahamScan_degenerate_witness :
    [(⟨5, 5⟩ : Point), ⟨2, 2⟩].length < 3 ∧
    (grahamScanWith insertionSort [⟨5, 5⟩, ⟨2, 2⟩] = [⟨5, 5⟩, ⟨2, 2⟩] ∧
     grahamScanWith insertionSort [] = []) :=
  ⟨by decide, grahamScan_degenerate insertionSort [⟨5, 5⟩, ⟨2, 2⟩] (by decide)⟩

/-- C10 (no failure): for every `sort.Slice` that keeps the length of the
slice, every input and every fuel at least the length of the input, the run
with checked index reads returns a hull, the one `grahamScanWith` computes: no
read of `points[0]`, `points[1]`, `points[i]`, `hull[len-2]` or `hull[len-1]`
is out of range and no pop loop runs out of fuel. -/
theorem grahamScanChecked_returns
    (sortSlice : (Point → Point → Bool) → List Point → List Point)
    (hlength : ∀ less l, (sortSlice less l).length = l.length)
    (fuel : Nat) (points : List Point) (hfuel : points.length ≤ fuel) :
    grahamScanChecked sortSlice fuel points = .ok (grahamScanWith sortSlice points) := by
  unfold grahamScanChecked grahamScanWith
  split
  · rfl
  · rename_i hlen
    cases points with
    | nil => simp at hlen
    | cons p0 t =>
      simp only [List.getElem?_cons_zero, sortedPoints]
      have hl := hlength (sortByPolarAngle (selectAnchor p0 (p0 :: t))) (p0 :: t)
      generalize sortSlice (sortByPolarAngle (selectAnchor p0 (p0 :: t))) (p0 :: t) = sorted at hl
      match sorted, hl with
      | s0 :: s1 :: rest, hl =>
        simp only [List.getElem?_cons_zero, List.getElem?_cons_succ, List.length_cons]
        have := scanLoopChecked_eq fuel (s0 :: s1 :: rest) rest.length 2 [s1, s0]
          (by simp; omega) (by simp) (by simp at hl hfuel ⊢; omega)
        simpa using this
      | [], hl => simp at hl
      | [_], hl => simp only [List.length_cons, List.length_nil] at hl hlen; omega

/-- Witness of C10: the insertion sort keeps the length, and the checked run
on the square with an interior point, with fuel 5, returns the hull. -/
theorem grahamScanChecked_returns_witness :
    (∀ (less : Point → Point → Bool) (l : List Point),
        (insertionSort less l).length = l.length) ∧
    [(⟨0, 0⟩ : Point), ⟨4, 0⟩, ⟨4, 4⟩, ⟨0, 4⟩, ⟨2, 2⟩].length ≤ 5 ∧
    grahamScanChecked insertionSort 5 [⟨0, 0⟩, ⟨4, 0⟩, ⟨4, 4⟩, ⟨0, 4⟩, ⟨2, 2⟩]
      = .ok (grahamScanWith insertionSort [⟨0, 0⟩, ⟨4, 0⟩, ⟨4, 4⟩, ⟨0, 4⟩, ⟨2, 2⟩]) :=
  ⟨fun less l => (insertionSort_perm less l).length_eq, by decide,
   grahamScanChecked_returns insertionSort (fun less l => (insertionSort_perm less l).length_eq)
     5 [⟨0, 0⟩, ⟨4, 0⟩, ⟨4, 4⟩, ⟨0, 4⟩, ⟨2, 2⟩] (by decide)⟩

/-- C11 (input is read-only), refuted on the code. On the three points
`(0,0), (0,1), (1,0)` the array behind the caller's slice holds
`(0,0), (1,0), (0,1)` when the function returns: the swaps of the in-place sort
have reordered it. -/
theorem grahamScanRun_reorders :
    (grahamScanRun insertionSteps [⟨0, 0⟩, ⟨0, 1⟩, ⟨1, 0⟩]).1.points
      = [⟨0, 0⟩, ⟨1, 0⟩, ⟨0, 1⟩] ∧
    (grahamScanRun insertionSteps [⟨0, 0⟩, ⟨0, 1⟩, ⟨1, 0⟩]).1.points
      ≠ [⟨0, 0⟩, ⟨0, 1⟩, ⟨1, 0⟩] := by
  decide

/-- C11 as amended: whatever steps `sort.Slice` takes, the array behind the
caller's slice holds a permutation of the input when the function returns
(only swaps have written to it); it holds the input itself, in the same order,
unless the input has three points or more; and the slice returned is the one
`grahamScanWith` computes with that sort. -/
theorem grahamScanRun_frame (steps : Nat → SortSteps) (caller : List Point) :
    (grahamScanRun steps caller).1.points.Perm caller ∧
    ((grahamScanRun steps caller).1.points = caller ∨ 3 ≤ caller.length) ∧
    (grahamScanRun steps caller).2
      = grahamScanWith (fun less l => runSort less (steps l.length) l) caller := by
  refine ⟨?_, ?_, grahamScanRun_returns steps caller⟩
  · unfold grahamScanRun
    simp only
    split
    · exact List.Perm.refl _
    · cases caller with
      | nil => exact List.Perm.refl _
      | cons p0 t =>
        simp only
        split <;> exact runSort_perm _ _ _
  · by_cases h : caller.length < 3
    · left
      unfold grahamScanRun
      simp only
      rw [if_pos h]
    · right
      omega

/-- C12 (all-collinear input), evaluated where the code breaks it. The three
points `(0,1), (0,0), (0,2)` are collinear and the function returns
`(0,1), (0,2)`: the input point `(0,0)` is not on the segment between the two
returned points, so they are not the two extremes. -/
theorem grahamScan_collinear_fails :
    3 ≤ [(⟨0, 1⟩ : Point), ⟨0, 0⟩, ⟨0, 2⟩].length ∧
    AllCollinear [⟨0, 1⟩, ⟨0, 0⟩, ⟨0, 2⟩] ∧
    grahamScan [⟨0, 1⟩, ⟨0, 0⟩, ⟨0, 2⟩] = [⟨0, 1⟩, ⟨0, 2⟩] ∧
    ¬ OnSegment ⟨0, 1⟩ ⟨0, 2⟩ ⟨0, 0⟩ := by
  decide

/-- C13 (duplicate of the anchor), evaluated where the code breaks it. In
`(0,0), (0,1), (1,0), (0,0)` the anchor `(0,0)` occurs twice, and it occurs
twice in the returned hull `(0,0), (1,0), (0,1), (0,0)`. -/
theorem grahamScan_anchor_duplicate_fails :
    selectAnchor ⟨0, 0⟩ [⟨0, 0⟩, ⟨0, 1⟩, ⟨1, 0⟩, ⟨0, 0⟩] = ⟨0, 0⟩ ∧
    [(⟨0, 0⟩ : Point), ⟨0, 1⟩, ⟨1, 0⟩, ⟨0, 0⟩].count ⟨0, 0⟩ = 2 ∧
    grahamScan [⟨0, 0⟩, ⟨0, 1⟩, ⟨1, 0⟩, ⟨0, 0⟩] = [⟨0, 0⟩, ⟨1, 0⟩, ⟨0, 1⟩, ⟨0, 0⟩] ∧
    (grahamScan [⟨0, 0⟩, ⟨0, 1⟩, ⟨1, 0⟩, ⟨0, 0⟩]).count ⟨0, 0⟩ = 2 := by
  decide

/-- C14 (all-coincident input), refuted on the code. On three copies of
`(0,0)` the function returns two copies of the point, not one. -/
theorem grahamScan_coincident_two :
    grahamScan [⟨0, 0⟩, ⟨0, 0⟩, ⟨0, 0⟩] = [⟨0, 0⟩, ⟨0, 0⟩] ∧
    grahamScan [⟨0, 0⟩, ⟨0, 0⟩, ⟨0, 0⟩] ≠ [⟨0, 0⟩] := by
  decide

/-- C14 as amended: for every `sort.Slice` that permutes the slice, an input
of at least three points all equal to `a` gives the hull `[a, a]`, of size 2. -/
theorem grahamScan_coincident
    (sortSlice : (Point → Point → Bool) → List Point → List Point)
    (hperm : ∀ less l, (sortSlice less l).Perm l) (a : Point) (points : List Point)
    (hlen : 3 ≤ points.length) (hall : ∀ p ∈ points, p = a) :
    grahamScanWith sortSlice points = [a, a] := by
  unfold grahamScanWith
  rw [if_neg (by omega)]
  have hp := sortedPoints_perm sortSlice hperm points
  have hs : ∀ p ∈ sortedPoints sortSlice points, p = a :=
    fun p h => hall p (hp.subset h)
  split
  · rename_i s0 s1 rest heq
    rw [heq] at hs
    have h0 : s0 = a := hs s0 (by simp)
    have h1 : s1 = a := hs s1 (by simp)
    rw [h0, h1, scanLoop_coincident a rest (fun p h => hs p (by simp [h]))]
    rfl
  · rename_i hne
    exfalso
    have hl := hp.length_eq
    match hsp : sortedPoints sortSlice points with
    | [] => rw [hsp] at hl; simp at hl; omega
    | [_] => rw [hsp] at hl; simp at hl; omega
    | s0 :: s1 :: rest => exact hne s0 s1 rest hsp

/-- Witness of the amended C14: four copies of `(2,5)` give two copies. -/
theorem grahamScan_coincident_witness :
    (∀ (less : Point → Point → Bool) (l : List Point), (insertionSort less l).Perm l) ∧
    3 ≤ (List.replicate 4 (⟨2, 5⟩ : Point)).length ∧
    (∀ p ∈ List.replicate 4 (⟨2, 5⟩ : Point), p = ⟨2, 5⟩) ∧
    grahamScanWith insertionSort (List.replicate 4 ⟨2, 5⟩) = [⟨2, 5⟩, ⟨2, 5⟩] :=
  ⟨fun less l => insertionSort_perm less l, by decide, by decide,
   grahamScan_coincident insertionSort (fun less l => insertionSort_perm less l) ⟨2, 5⟩
     (List.replicate 4 ⟨2, 5⟩) (by decide) (by decide)⟩

/-- C15 (repository example), evaluated where the code breaks it. On the slice
of `main`, sorted by the insertion sort, the function returns the seven points
`(1,1), (4,4), (0,3), (0,0), (3,1), (3,3), (1,2)`, not the hull
`(0,0), (3,1), (4,4), (0,3)`. -/
theorem grahamScan_main_fails :
    grahamScan mainPoints
      = [⟨1, 1⟩, ⟨4, 4⟩, ⟨0, 3⟩, ⟨0, 0⟩, ⟨3, 1⟩, ⟨3, 3⟩, ⟨1, 2⟩] ∧
    grahamScan mainPoints ≠ [⟨0, 0⟩, ⟨3, 1⟩, ⟨4, 4⟩, ⟨0, 3⟩] := by
  decide

/-- The stack invariant in exact arithmetic: whatever `sort.Slice` produces, on
an input of at least three points every three consecutive elements `a, b, c`
of the returned list, not wrapping around its end, satisfy
`crossProduct a b c > 0`. -/
theorem grahamScan_stack_invariant
    (sortSlice : (Point → Point → Bool) → List Point → List Point)
    (points : List Point) (_hlen : 3 ≤ points.length)
    (pre : List Point) (a b c : Point) (post : List Point)
    (hH : grahamScanWith sortSlice points = pre ++ a :: b :: c :: post) :
    0 < crossProduct a b c := by
  unfold grahamScanWith at hH
  rw [if_neg (by omega)] at hH
  split at hH
  · rename_i s0 s1 rest _
    have ht := scanLoop_turns [s1, s0] rest trivial
    have hr : scanLoop [s1, s0] rest = post.reverse ++ c :: b :: a :: pre.reverse := by
      have := congrArg List.reverse hH
      simpa using this
    rw [hr] at ht
    exact stackTurns_append _ c b a _ ht
  · simp at hH

/-- The exact stack invariant at the square with an interior point: its first
three hull vertices make a strict left turn. -/
theorem grahamScan_stack_invariant_witness :
    3 ≤ [(⟨0, 0⟩ : Point), ⟨4, 0⟩, ⟨4, 4⟩, ⟨0, 4⟩, ⟨2, 2⟩].length ∧
    grahamScanWith insertionSort [⟨0, 0⟩, ⟨4, 0⟩, ⟨4, 4⟩, ⟨0, 4⟩, ⟨2, 2⟩]
      = [] ++ ⟨0, 0⟩ :: ⟨4, 0⟩ :: ⟨4, 4⟩ :: [⟨0, 4⟩] ∧
    0 < crossProduct ⟨0, 0⟩ ⟨4, 0⟩ ⟨4, 4⟩ :=
  ⟨by decide, by decide,
   grahamScan_stack_invariant insertionSort [⟨0, 0⟩, ⟨4, 0⟩, ⟨4, 4⟩, ⟨0, 4⟩, ⟨2, 2⟩]
     (by decide) [] ⟨0, 0⟩ ⟨4, 0⟩ ⟨4, 4⟩ [⟨0, 4⟩] (by decide)⟩

/-- C16 (stack invariant), refuted on the code. On the three finite points
`(0,0), (2^600, 2^600), (2^601, 2^601)` both products of `crossProduct`
overflow to `+Inf`, their difference is NaN, the test `NaN <= 0` is false and
nothing is popped: the function returns the three points, and the cross
product of this triple is NaN, not greater than 0. -/
theorem grahamScan_stack_nan :
    3 ≤ [IEEE.ofInts 0 0, IEEE.ofInts (2 ^ 600) (2 ^ 600),
          IEEE.ofInts (2 ^ 601) (2 ^ 601)].length ∧
    IEEE.grahamScan [IEEE.ofInts 0 0, IEEE.ofInts (2 ^ 600) (2 ^ 600),
        IEEE.ofInts (2 ^ 601) (2 ^ 601)]
      = [IEEE.ofInts 0 0, IEEE.ofInts (2 ^ 600) (2 ^ 600), IEEE.ofInts (2 ^ 601) (2 ^ 601)] ∧
    IEEE.crossProduct (IEEE.ofInts 0 0) (IEEE.ofInts (2 ^ 600) (2 ^ 600))
        (IEEE.ofInts (2 ^ 601) (2 ^ 601)) = F64.nan ∧
    F64.lt F64.zero (IEEE.crossProduct (IEEE.ofInts 0 0) (IEEE.ofInts (2 ^ 600) (2 ^ 600))
        (IEEE.ofInts (2 ^ 601) (2 ^ 601))) = false := by
  decide!

/-- C16 as amended: whatever `sort.Slice` produces, on an input of at least
three points every three consecutive elements `a, b, c` of the returned list,
not wrapping around its end, fail the pop test: `crossProduct a b c <= 0` is
false, so `crossProduct a b c` is greater than 0 or is NaN. -/
theorem grahamScan_stack_turns
    (sortSlice : (IEEE.Point → IEEE.Point → Bool) → List IEEE.Point → List IEEE.Point)
    (points : List IEEE.Point) (hlen : 3 ≤ points.length)
    (pre : List IEEE.Point) (a b c : IEEE.Point) (post : List IEEE.Point)
    (hH : IEEE.grahamScanWith sortSlice points = pre ++ a :: b :: c :: post) :
    F64.le (IEEE.crossProduct a b c) F64.zero = false ∧
    (F64.lt F64.zero (IEEE.crossProduct a b c) = true ∨ IEEE.crossProduct a b c = F64.nan) := by
  have key : F64.le (IEEE.crossProduct a b c) F64.zero = false := by
    unfold IEEE.grahamScanWith at hH
    rw [if_neg (by omega)] at hH
    split at hH
    · rename_i s0 s1 rest _
      have ht := ieee_scanLoop_turns [s1, s0] rest trivial
      have hr : IEEE.scanLoop [s1, s0] rest
          = post.reverse ++ c :: b :: a :: pre.reverse := by
        have := congrArg List.reverse hH
        simpa using this
      rw [hr] at ht
      exact ieee_stackTurns_append _ c b a _ ht
    · simp at hH
  exact ⟨key, F64.not_le_zero _ key⟩

/-- Witness of the amended C16: the first three vertices of the hull of the
square with an interior point, in `float64` arithmetic. -/
theorem grahamScan_stack_turns_witness :
    3 ≤ [IEEE.ofInts 0 0, IEEE.ofInts 4 0, IEEE.ofInts 4 4, IEEE.ofInts 0 4,
          IEEE.ofInts 2 2].length ∧
    IEEE.grahamScanWith insertionSort [IEEE.ofInts 0 0, IEEE.ofInts 4 0, IEEE.ofInts 4 4,
        IEEE.ofInts 0 4, IEEE.ofInts 2 2]
      = [] ++ IEEE.ofInts 0 0 :: IEEE.ofInts 4 0 :: IEEE.ofInts 4 4 :: [IEEE.ofInts 0 4] ∧
    (F64.le (IEEE.crossProduct (IEEE.ofInts 0 0) (IEEE.ofInts 4 0) (IEEE.ofInts 4 4))
        F64.zero = false ∧
     (F64.lt F64.zero (IEEE.crossProduct (IEEE.ofInts 0 0) (IEEE.ofInts 4 0)
          (IEEE.ofInts 4 4)) = true ∨
      IEEE.crossProduct (IEEE.ofInts 0 0) (IEEE.ofInts 4 0) (IEEE.ofInts 4 4) = F64.nan)) :=
  ⟨by decide, by decide!,
   grahamScan_stack_turns insertionSort [IEEE.ofInts 0 0, IEEE.ofInts 4 0, IEEE.ofInts 4 4,
       IEEE.ofInts 0 4, IEEE.ofInts 2 2] (by decide) [] (IEEE.ofInts 0 0) (IEEE.ofInts 4 0)
       (IEEE.ofInts 4 4) [IEEE.ofInts 0 4] (by decide!)⟩

/-- C17 (anchor selection): for every non-empty list `p0 :: t`, the anchor the
selection loop computes is an element of the list and is its least element by
`(y, x)`: its `y` is smaller than, or equal with `x` at most, that of every
point of the list. -/
theorem selectAnchor_isAnchor (p0 : Point) (t : List Point) :
    IsAnchor (p0 :: t) (selectAnchor p0 (p0 :: t)) := by
  refine ⟨?_, ?_⟩
  · rcases selectAnchor_mem p0 (p0 :: t) with h | h
    · rw [h]; exact List.mem_cons_self _ _
    · exact h
  · exact (selectAnchor_le p0 (p0 :: t)).2

/-- C18 (the comparator is a strict order on non-anchor points): for every
anchor `a` and points `p, q, r` strictly after `a` by `(y, x)`, the comparator
is irreflexive, asymmetric and transitive. -/
theorem sortByPolarAngle_strict_order (a p q r : Point)
    (hp : NonAnchor a p) (hq : NonAnchor a q) (hr : NonAnchor a r) :
    sortByPolarAngle a p p = false ∧
    (sortByPolarAngle a p q = true → sortByPolarAngle a q p = false) ∧
    (sortByPolarAngle a p q = true → sortByPolarAngle a q r = true →
      sortByPolarAngle a p r = true) := by
  refine ⟨?_, ?_, ?_⟩
  · rw [← Bool.not_eq_true, sortByPolarAngle_iff]
    have : crossProduct a p p = 0 := by unfold crossProduct; ring
    rw [this]; simp
  · intro h
    rw [← Bool.not_eq_true, sortByPolarAngle_iff]
    rw [sortByPolarAngle_iff] at h
    have hneg : crossProduct a q p = - crossProduct a p q := by unfold crossProduct; ring
    rw [hneg]
    omega
  · intro h1 h2
    rw [sortByPolarAngle_iff] at h1 h2 ⊢
    unfold NonAnchor at hp hq hr
    unfold crossProduct at h1 h2 ⊢
    have := less_trans_core (p.x - a.x) (p.y - a.y) (q.x - a.x) (q.y - a.y)
      (r.x - a.x) (r.y - a.y) (by omega) (by omega) (by omega)
      (by rcases h1 with ⟨h, hx⟩ | h
          · left; exact ⟨h, by omega⟩
          · right; exact h)
      (by rcases h2 with ⟨h, hx⟩ | h
          · left; exact ⟨h, by omega⟩
          · right; exact h)
    rcases this with ⟨h, hx⟩ | h
    · left; exact ⟨h, by omega⟩
    · right; exact h

/-- Witness of C18: anchor `(0,0)` and the points `(1,0), (1,1), (0,1)`. -/
theorem sortByPolarAngle_strict_order_witness :
    NonAnchor ⟨0, 0⟩ ⟨1, 0⟩ ∧ NonAnchor ⟨0, 0⟩ ⟨1, 1⟩ ∧ NonAnchor ⟨0, 0⟩ ⟨0, 1⟩ ∧
    (sortByPolarAngle ⟨0, 0⟩ ⟨1, 0⟩ ⟨1, 0⟩ = false ∧
     (sortByPolarAngle ⟨0, 0⟩ ⟨1, 0⟩ ⟨1, 1⟩ = true →
        sortByPolarAngle ⟨0, 0⟩ ⟨1, 1⟩ ⟨1, 0⟩ = false) ∧
     (sortByPolarAngle ⟨0, 0⟩ ⟨1, 0⟩ ⟨1, 1⟩ = true →
        sortByPolarAngle ⟨0, 0⟩ ⟨1, 1⟩ ⟨0, 1⟩ = true →
        sortByPolarAngle ⟨0, 0⟩ ⟨1, 0⟩ ⟨0, 1⟩ = true)) :=
  ⟨by decide, by decide, by decide,
   sortByPolarAngle_strict_order ⟨0, 0⟩ ⟨1, 0⟩ ⟨1, 1⟩ ⟨0, 1⟩
     (by decide) (by decide) (by decide)⟩

/-- C19 (the tie-break is strict), evaluated where the code breaks it. With
anchor `(0,0)`, the distinct non-anchor points `(0,1)` and `(0,2)` compare as
not less in both directions; on `(0,0), (0,2), (0,1)` the sort therefore leaves
`(0,1)` last and the function returns `(0,0), (0,1)`. -/
theorem sortByPolarAngle_tie :
    NonAnchor ⟨0, 0⟩ ⟨0, 1⟩ ∧ NonAnchor ⟨0, 0⟩ ⟨0, 2⟩ ∧ (⟨0, 1⟩ : Point) ≠ ⟨0, 2⟩ ∧
    sortByPolarAngle ⟨0, 0⟩ ⟨0, 1⟩ ⟨0, 2⟩ = false ∧
    sortByPolarAngle ⟨0, 0⟩ ⟨0, 2⟩ ⟨0, 1⟩ = false ∧
    grahamScan [⟨0, 0⟩, ⟨0, 2⟩, ⟨0, 1⟩] = [⟨0, 0⟩, ⟨0, 1⟩] := by
  decide

/-- C20 (orientation predicate): `crossProduct p q r` is
`(q.x - p.x) * (r.y - p.y) - (q.y - p.y) * (r.x - p.x)`, swapping the last two
arguments flips its sign, and it is 0 whenever two of the three points are
equal. -/
theorem crossProduct_orientation (p q r : Point) :
    crossProduct p q r = (q.x - p.x) * (r.y - p.y) - (q.y - p.y) * (r.x - p.x) ∧
    crossProduct p r q = - crossProduct p q r ∧
    crossProduct p p r = 0 ∧ crossProduct p q p = 0 ∧ crossProduct p q q = 0 := by
  unfold crossProduct
  refine ⟨rfl, by ring, by ring, by ring, by ring⟩

end ConvexHull
